import Mathlib

/-!
Verification of `feature_mining/parse_and_model.py`.

The development shallowly embeds the three functions of the module —
`format_feature_list`, `read_annotated_data` and `build_explicit_models` —
and settles the specification claims about them.

Conventions of the embedding:
* Python strings are modelled as `String` where only whole-token equality
  matters (feature names, tokens) and as `List Char` where the code does
  substring surgery (`split`, `strip`, `lower`, `startswith`).
* Python exceptions become `Except` errors carrying the message of the
  exception that the interpreter would raise.
* Machine floats are idealised as real numbers; `math.log(x, 2)` becomes
  `Real.logb 2 x`.
* The spaCy tokenizer used by `build_explicit_models` is an injected
  external capability (out of scope per the specification), so that
  function is embedded over already-tokenized sections.
-/

namespace FeatureMining

/-! ## Feature catalog: `format_feature_list`

A Python value appearing in the input list is a string, a list, or some
other object (modelled by the string `repr` that `str()` would print). -/

inductive PyItem where
  | str (s : String)
  | list (l : List PyItem)
  | other (r : String)

/-- Python `repr()` of an input value (how elements nested inside a list
are rendered by `str` of the list: strings come out quoted). -/
def pyReprQ : PyItem → String
  | .other r => r
  | .str s => "'" ++ s ++ "'"
  | .list l => "[" ++ String.intercalate ", " (l.attach.map (fun x => pyReprQ x.1)) ++ "]"
termination_by x => sizeOf x
decreasing_by
  have h := List.sizeOf_lt_of_mem x.2
  simp only [PyItem.list.sizeOf_spec]
  omega

/-- Python `str()` of an input value. -/
def pyRepr : PyItem → String
  | .str s => s
  | x => pyReprQ x

/-- One row of the DataFrame returned by `format_feature_list`. -/
structure FeatureRow where
  feature_term_id : Nat
  feature_id : Nat
  feature : String
deriving DecidableEq

def errMsgSuffix : String := " is not a string or a list of strings"

/-- The inner `for synonym in feature` loop of `format_feature_list`:
walks a nested list, giving every string the shared `feature_id` `fi` and
consecutive `feature_term_id`s starting at `ti`; raises `ValueError` on a
non-string element.  Returns the rows plus the next free term id. -/
def synRows (fi ti : Nat) (parent : PyItem) : List PyItem → Except String (List FeatureRow × Nat)
  | [] => .ok ([], ti)
  | PyItem.str s :: rest =>
    match synRows fi (ti + 1) parent rest with
    | .error e => .error e
    | .ok (rs, t) => .ok (⟨ti, fi, s⟩ :: rs, t)
  | x :: _ => .error (pyRepr parent ++ ">" ++ pyRepr x ++ errMsgSuffix)

/-- The outer loop of `format_feature_list`: entry number `fi` (0-based)
contributes rows with `feature_id = fi`; `ti` is the next free
`feature_term_id`. -/
def formatAux (fi ti : Nat) : List PyItem → Except String (List FeatureRow)
  | [] => .ok []
  | PyItem.str s :: rest =>
    match formatAux (fi + 1) (ti + 1) rest with
    | .error e => .error e
    | .ok rows => .ok (⟨ti, fi, s⟩ :: rows)
  | PyItem.list l :: rest =>
    match synRows fi ti (PyItem.list l) l with
    | .error e => .error e
    | .ok (rs, ti2) =>
      match formatAux (fi + 1) ti2 rest with
      | .error e => .error e
      | .ok rows => .ok (rs ++ rows)
  | PyItem.other r :: _ => .error (r ++ errMsgSuffix)

/-- `format_feature_list` from `parse_and_model.py` (lines 10–57). -/
def format_feature_list (l : List PyItem) : Except String (List FeatureRow) :=
  formatAux 0 0 l

/-- Whether a Python value is a string. -/
def isStrB : PyItem → Bool
  | .str _ => true
  | _ => false

/-- A valid top-level entry: a string, or a list all of whose elements are
strings. -/
def validEntryB : PyItem → Bool
  | .str _ => true
  | .list l => l.all isStrB
  | .other _ => false

/-- A top-level entry that is a list must be nonempty (used to state the
amendment of the density claim). -/
def entryNonemptyB : PyItem → Bool
  | .list l => !l.isEmpty
  | _ => true

/-- Specification-side shape of the rows contributed by one nested
synonym sequence: one row per string, all sharing the single feature id
`fi`, with consecutive `feature_term_id`s starting at `ti`. -/
def specSynRows (fi : Nat) : Nat → List PyItem → List FeatureRow
  | _, [] => []
  | ti, PyItem.str s :: rest => ⟨ti, fi, s⟩ :: specSynRows fi (ti + 1) rest
  | _, _ :: _ => []

/-- Specification-side catalog: the entry at position `i` (0-based) owns
feature id `fi + i`; a top-level string contributes exactly one row with
its own feature id, a nested sequence contributes its synonym rows, all
sharing that feature id, and term ids run consecutively across the whole
catalog. -/
def specCatalog : Nat → Nat → List PyItem → List FeatureRow
  | _, _, [] => []
  | fi, ti, PyItem.str s :: rest => ⟨ti, fi, s⟩ :: specCatalog (fi + 1) (ti + 1) rest
  | fi, ti, PyItem.list l2 :: rest =>
    specSynRows fi ti l2 ++ specCatalog (fi + 1) (ti + l2.length) rest
  | fi, ti, PyItem.other _ :: rest => specCatalog (fi + 1) ti rest

/-- The density property of the claim: every integer from 0 up to any
assigned `feature_id` is itself the `feature_id` of some returned row. -/
def denseIds (rows : List FeatureRow) : Prop :=
  ∀ r ∈ rows, ∀ k ≤ r.feature_id, ∃ r2 ∈ rows, r2.feature_id = k

instance denseIdsDecidable (rows : List FeatureRow) : Decidable (denseIds rows) := by
  unfold denseIds
  infer_instance

/-! ## Corpus reader: `read_annotated_data`

Lines are modelled as `List Char`; the Python string primitives that the
function uses — `in` (substring test), `split`, `strip`, `lower`,
`startswith` — are reproduced below with Python semantics (leftmost,
non-overlapping occurrences for `split`). -/

/-- Number of (leftmost, non-overlapping) occurrences of `sep` in `s`,
as counted by Python `str.split` (which returns one more piece).  The
`fuel` argument makes the recursion structural; every step consumes at
least one character, so `fuel = s.length` is always enough. -/
def countOccF (sep : List Char) : Nat → List Char → Nat
  | _, [] => 0
  | 0, _ :: _ => 0
  | fuel + 1, c :: rest =>
    if sep.isPrefixOf (c :: rest) then 1 + countOccF sep fuel (List.drop (sep.length - 1) rest)
    else countOccF sep fuel rest

def countOcc (sep s : List Char) : Nat := countOccF sep s.length s

/-- Python `s.split(sep)` for a nonempty separator (accumulator and fuel
version); `acc` holds the piece being scanned, reversed. -/
def splitAuxF (sep : List Char) : Nat → List Char → List Char → List (List Char)
  | _, acc, [] => [acc.reverse]
  | 0, acc, _ :: _ => [acc.reverse]
  | fuel + 1, acc, c :: rest =>
    if sep.isPrefixOf (c :: rest) then
      acc.reverse :: splitAuxF sep fuel [] (List.drop (sep.length - 1) rest)
    else splitAuxF sep fuel (c :: acc) rest

/-- Python `s.split(sep)` for a nonempty separator. -/
def pySplit (sep s : List Char) : List (List Char) := splitAuxF sep s.length [] s

/-- Python `sep in s`. -/
def containsSub (sep s : List Char) : Bool := decide (countOcc sep s ≠ 0)

/-- Python `s.startswith(p)`. -/
def pyStartsWith (p s : List Char) : Bool := p.isPrefixOf s

/-- Python `s.strip()`. -/
def pyStrip (s : List Char) : List Char :=
  ((s.dropWhile Char.isWhitespace).reverse.dropWhile Char.isWhitespace).reverse

/-- Python `s.lower()`. -/
def pyLower (s : List Char) : List Char := s.map Char.toLower

/-- Everything after the first occurrence of `sep` (fuel version). -/
def dropThroughFirstF (sep : List Char) : Nat → List Char → List Char
  | _, [] => []
  | 0, _ :: _ => []
  | fuel + 1, c :: rest =>
    if sep.isPrefixOf (c :: rest) then List.drop (sep.length - 1) rest
    else dropThroughFirstF sep fuel rest

/-- Everything after the first occurrence of `sep` in `s` (the
specification reading of "title text is everything after the marker"). -/
def dropThroughFirst (sep s : List Char) : List Char := dropThroughFirstF sep s.length s

/-- The prefix of `s` up to (excluding) the first occurrence of `sep`,
or all of `s` when `sep` does not occur (fuel version). -/
def takeBeforeFirstF (sep : List Char) : Nat → List Char → List Char
  | _, [] => []
  | 0, _ :: _ => []
  | fuel + 1, c :: rest =>
    if sep.isPrefixOf (c :: rest) then []
    else c :: takeBeforeFirstF sep fuel rest

/-- The prefix of `s` up to the first occurrence of `sep`; composed with
`dropThroughFirst` it expresses "the segment between the first marker
and its next occurrence". -/
def takeBeforeFirst (sep s : List Char) : List Char := takeBeforeFirstF sep s.length s

def chars (s : String) : List Char := s.toList

def tMark : List Char := chars "[t]"

def starMark : List Char := chars "*"

def hashMark : List Char := chars "##"

def commaMark : List Char := chars ","

def uMark : List Char := chars "[u]"

def atMark : List Char := chars "[@]"

/-- The message of the Python `IndexError` raised by
`line.split(sep)[1]` when the separator does not occur in the line. -/
def indexErrMsg : List Char := chars "list index out of range"

/-- One row of the `section_list` DataFrame built by
`read_annotated_data`. -/
structure SectionR where
  doc_id : Int
  section_id : Nat
  section_text : List Char
  title : Bool
deriving DecidableEq

/-- One row of the `feature_section_mapping` DataFrame. -/
structure MentionR where
  doc_id : Int
  section_id : Nat
  feature : List Char
  is_explicit : Bool
deriving DecidableEq

/-- The mutable state of the reading loop: current `doc_id`, the next
`section_id`, and the three accumulated collections (the per-feature
counter `feature_list` is an association list). -/
structure RState where
  doc_id : Int
  section_id : Nat
  section_list : List SectionR
  feature_section_mapping : List MentionR
  feature_list : List (List Char × Nat)
deriving DecidableEq

/-- `doc_id = -1`, `section_id = 0`, empty collections. -/
def initState : RState := ⟨-1, 0, [], [], []⟩

/-- `feature_list[feature_text] += 1` on a `defaultdict(int)`. -/
def bumpFeature (k : List Char) : List (List Char × Nat) → List (List Char × Nat)
  | [] => [(k, 1)]
  | (k2, n) :: rest => if k2 = k then (k2, n + 1) :: rest else (k2, n) :: bumpFeature k rest

/-- Record one comma-separated annotation entry: implicit iff it contains
`[u]`; the feature text is the part before the first `[@]`. -/
def recordFeature (doc : Int) (sid : Nat) (st : RState) (f : List Char) : RState :=
  { st with
    feature_section_mapping := st.feature_section_mapping ++
      [⟨doc, sid, (pySplit atMark f).getD 0 [], !(containsSub uMark f)⟩],
    feature_list := bumpFeature ((pySplit atMark f).getD 0 []) st.feature_list }

/-- The body of the `for line in input_file` loop of
`read_annotated_data` (lines 96–145): classify the line, parse
annotations of non-title lines, append the `Section`, increment
`section_id`.  A body line without `##` raises `IndexError`. -/
def processLine (line : List Char) (st : RState) : Except (List Char) RState :=
  if containsSub tMark line then
    .ok { st with
      doc_id := st.doc_id + 1,
      section_id := st.section_id + 1,
      section_list := st.section_list ++
        [⟨st.doc_id + 1, st.section_id, pyLower (pyStrip ((pySplit tMark line).getD 1 [])), true⟩] }
  else if pyStartsWith starMark line then
    .ok { st with
      doc_id := st.doc_id + 1,
      section_id := st.section_id + 1,
      section_list := st.section_list ++
        [⟨st.doc_id + 1, st.section_id, pyLower (pyStrip ((pySplit starMark line).getD 1 [])), true⟩] }
  else
    match pySplit hashMark line with
    | [_] => .error indexErrMsg
    | parts =>
      let line_text := pyLower (pyStrip (parts.getD 1 []))
      let feature_string := pySplit commaMark (parts.getD 0 [])
      let st2 :=
        if feature_string.getD 0 [] ≠ [] then
          feature_string.foldl (recordFeature st.doc_id st.section_id) st
        else st
      .ok { st2 with
        section_id := st.section_id + 1,
        section_list := st2.section_list ++
          [⟨st.doc_id, st.section_id, line_text, false⟩] }

/-- The reading loop with the `nlines` early-exit check (lines 149–151):
after appending a section, stop if `section_id >= nlines`. -/
def readAux (nlines : Option Int) : List (List Char) → RState → Except (List Char) RState
  | [], st => .ok st
  | line :: rest, st =>
    match processLine line st with
    | .error e => .error e
    | .ok st2 =>
      match nlines with
      | some n => if (st2.section_id : Int) ≥ n then .ok st2 else readAux nlines rest st2
      | none => readAux nlines rest st2

/-- `read_annotated_data` from `parse_and_model.py` (lines 60–155),
over the list of lines of the file. -/
def read_annotated_data (lines : List (List Char)) (nlines : Option Int) :
    Except (List Char) RState :=
  readAux nlines lines initState

/-- A line on which `processLine` does not raise: a title line, or a body
line containing `##`. -/
def lineOk (line : List Char) : Bool :=
  containsSub tMark line || pyStartsWith starMark line || containsSub hashMark line

/-! ## Model builder: `build_explicit_models`

The spaCy pipeline (tokenize, lemmatize, drop stop words and
punctuation) is the injected external capability of the specification,
so sections arrive here as lists of normalized tokens
(`current_section_words` in the source).  Counters become counting
functions; float arithmetic is idealised over the reals, with
`math.log(x, 2)` as `Real.logb 2 x`. -/

/-- One row of `text_set` after tokenization: `section_id` plus the
token list `current_section_words` that spaCy produces for
`section_text`. -/
structure SectionT where
  section_id : Nat
  tokens : List String
deriving DecidableEq

/-- Concatenation of all sections' tokens (the word stream feeding
`collection_word_counts`). -/
def allWords (text_set : List SectionT) : List String :=
  text_set.foldr (fun s acc => s.tokens ++ acc) []

/-- The key set of `collection_word_counts` (the vocabulary). -/
def vocab (text_set : List SectionT) : Finset String :=
  (allWords text_set).toFinset

/-- `collection_word_counts[w]`: occurrences of `w` over all sections. -/
def collection_word_counts (text_set : List SectionT) (w : String) : Nat :=
  (allWords text_set).count w

/-- `vocabulary_size = sum(collection_word_counts.values())`: the total
number of words (the name in the source is a misnomer kept as is). -/
def vocabulary_size (text_set : List SectionT) : Nat :=
  (allWords text_set).length

/-- `word_section_counter[w]`: number of sections containing `w`
(the counter is updated once per section from the distinct keys). -/
def word_section_counter (text_set : List SectionT) (w : String) : Nat :=
  text_set.countP (fun s => s.tokens.contains w)

/-- `section_count = len(section_word_list)`: rows of the input. -/
def section_count (text_set : List SectionT) : Nat := text_set.length

/-- The `found_features` set of one section: feature ids having some
term (synonym) among the section's tokens; each id is recorded once per
section even when several synonyms match. -/
def sectionFoundFeatureIds (feature_set : List FeatureRow) (toks : List String) : List Nat :=
  ((feature_set.filter (fun r => toks.contains r.feature)).map FeatureRow.feature_id).dedup

/-- `feature_word_counter[f][w]`: for each section whose tokens contain a
term of feature `f`, the distinct words of the section are added once. -/
def feature_word_counter (text_set : List SectionT) (feature_set : List FeatureRow)
    (f : Nat) (w : String) : Nat :=
  text_set.countP
    (fun s => (sectionFoundFeatureIds feature_set s.tokens).contains f && s.tokens.contains w)

/-- `model_background[w] = collection_word_counts[w] / vocabulary_size`
(maximum-likelihood unigram model). -/
noncomputable def model_background (text_set : List SectionT) (w : String) : ℝ :=
  (collection_word_counts text_set w : ℝ) / (vocabulary_size text_set : ℝ)

/-- The raw topic-model score of `(f, w)` (Formula 4 plus the `+1` of
Formula 5, base-2 logs):
`log2(1 + feature_word_counter[f][w]) * log2(1 + section_count / word_section_counter[w]) + 1`. -/
noncomputable def tfidf (text_set : List SectionT) (feature_set : List FeatureRow)
    (f : Nat) (w : String) : ℝ :=
  Real.logb 2 (1 + (feature_word_counter text_set feature_set f w : ℝ)) *
    Real.logb 2 (1 + (section_count text_set : ℝ) / (word_section_counter text_set w : ℝ)) + 1

/-- `model_feature_norms[f]`: the sum of raw scores of `f` over the
whole vocabulary. -/
noncomputable def model_feature_norm (text_set : List SectionT) (feature_set : List FeatureRow)
    (f : Nat) : ℝ :=
  ∑ w ∈ vocab text_set, tfidf text_set feature_set f w

/-- `model_feature[f][w]`: the raw score normalized by the per-feature
total (Formula 5). -/
noncomputable def model_feature (text_set : List SectionT) (feature_set : List FeatureRow)
    (f : Nat) (w : String) : ℝ :=
  tfidf text_set feature_set f w / model_feature_norm text_set feature_set f

/-! ## Lemmas and claim theorems -/

theorem range1_append (m : Nat) : ∀ s n : Nat,
    List.range' s m ++ List.range' (s + m) n = List.range' s (m + n) := by
  induction m with
  | zero => intro s n; simp
  | succ m ih =>
    intro s n
    rw [List.range'_succ, show m + 1 + n = (m + n) + 1 from by omega, List.range'_succ,
      List.cons_append, show s + (m + 1) = s + 1 + m from by omega, ih (s + 1) n]

theorem synRows_ok (fi : Nat) (parent : PyItem) :
    ∀ (l : List PyItem) (ti : Nat) (rs : List FeatureRow) (ti2 : Nat),
      synRows fi ti parent l = .ok (rs, ti2) →
      (∀ r ∈ rs, r.feature_id = fi) ∧
      List.map FeatureRow.feature_term_id rs = List.range' ti rs.length ∧
      ti2 = ti + rs.length ∧ rs.length = l.length := by
  intro l
  induction l with
  | nil =>
    intro ti rs ti2 h
    simp only [synRows, Except.ok.injEq, Prod.mk.injEq] at h
    obtain ⟨h1, h2⟩ := h
    subst h1
    subst h2
    simp [List.range']
  | cons x xs ih =>
    intro ti rs ti2 h
    cases x with
    | str s =>
      simp only [synRows] at h
      cases hrec : synRows fi (ti + 1) parent xs with
      | error e => rw [hrec] at h; exact Except.noConfusion h
      | ok p =>
        obtain ⟨rs1, t⟩ := p
        simp only [hrec, Except.ok.injEq, Prod.mk.injEq] at h
        obtain ⟨h1, h2⟩ := h
        subst h1
        subst h2
        obtain ⟨ha, hb, hc, hd⟩ := ih (ti + 1) rs1 t hrec
        refine ⟨?_, ?_, ?_, ?_⟩
        · intro r hr
          rcases List.mem_cons.1 hr with rfl | hr
          · rfl
          · exact ha r hr
        · simp only [List.map_cons, List.length_cons, hb, List.range'_succ]
        · simp only [List.length_cons]; omega
        · simp only [List.length_cons, hd]
    | list l2 => exact Except.noConfusion (by simpa only [synRows] using h)
    | other r => exact Except.noConfusion (by simpa only [synRows] using h)

theorem synRows_ok_of_all_str (fi : Nat) (parent : PyItem) :
    ∀ (l : List PyItem) (ti : Nat), (∀ c ∈ l, isStrB c = true) →
      ∃ rs t, synRows fi ti parent l = .ok (rs, t) := by
  intro l
  induction l with
  | nil => intro ti _; exact ⟨[], ti, rfl⟩
  | cons x xs ih =>
    intro ti hall
    cases x with
    | str s =>
      obtain ⟨rs, t, hrec⟩ := ih (ti + 1) (fun c hc => hall c (List.mem_cons_of_mem _ hc))
      exact ⟨⟨ti, fi, s⟩ :: rs, t, by simp only [synRows, hrec]⟩
    | list l2 => exact absurd (hall _ (List.mem_cons_self _ _)) (by simp [isStrB])
    | other r => exact absurd (hall _ (List.mem_cons_self _ _)) (by simp [isStrB])

theorem synRows_error_of_bad (fi : Nat) (parent : PyItem) :
    ∀ (l : List PyItem) (ti : Nat), (∃ c ∈ l, isStrB c = false) →
      ∃ e, synRows fi ti parent l = .error e := by
  intro l
  induction l with
  | nil => intro ti h; exact absurd h (by simp)
  | cons x xs ih =>
    intro ti h
    cases x with
    | str s =>
      have hxs : ∃ c ∈ xs, isStrB c = false := by
        rcases h with ⟨c, hc, hcs⟩
        rcases List.mem_cons.1 hc with rfl | hc
        · exact absurd hcs (by simp [isStrB])
        · exact ⟨c, hc, hcs⟩
      obtain ⟨e, hrec⟩ := ih (ti + 1) hxs
      exact ⟨e, by simp only [synRows, hrec]⟩
    | list l2 => exact ⟨_, rfl⟩
    | other r => exact ⟨_, rfl⟩

theorem synRows_error_shape (fi : Nat) (parent : PyItem) :
    ∀ (l : List PyItem) (ti : Nat) (e : String), synRows fi ti parent l = .error e →
      ∃ c ∈ l, isStrB c = false ∧ e = pyRepr parent ++ ">" ++ pyRepr c ++ errMsgSuffix := by
  intro l
  induction l with
  | nil => intro ti e h; exact absurd h (by simp [synRows])
  | cons x xs ih =>
    intro ti e h
    cases x with
    | str s =>
      simp only [synRows] at h
      cases hrec : synRows fi (ti + 1) parent xs with
      | error e2 =>
        simp only [hrec, Except.error.injEq] at h
        subst h
        obtain ⟨c, hc, hcs, hce⟩ := ih (ti + 1) e2 hrec
        exact ⟨c, List.mem_cons_of_mem _ hc, hcs, hce⟩
      | ok p => rw [hrec] at h; exact Except.noConfusion h
    | list l2 =>
      simp only [synRows, Except.error.injEq] at h
      exact ⟨PyItem.list l2, List.mem_cons_self _ _, rfl, h.symm⟩
    | other r =>
      simp only [synRows, Except.error.injEq] at h
      exact ⟨PyItem.other r, List.mem_cons_self _ _, rfl, h.symm⟩

theorem formatAux_ok (l : List PyItem) :
    ∀ (fi ti : Nat) (rows : List FeatureRow),
      formatAux fi ti l = .ok rows →
      List.map FeatureRow.feature_term_id rows = List.range' ti rows.length ∧
      (∀ r ∈ rows, fi ≤ r.feature_id ∧ r.feature_id < fi + l.length) ∧
      ((∀ x ∈ l, entryNonemptyB x = true) →
        ∀ k, fi ≤ k → k < fi + l.length → ∃ r ∈ rows, r.feature_id = k) := by
  induction l with
  | nil =>
    intro fi ti rows h
    simp only [formatAux, Except.ok.injEq] at h
    subst h
    refine ⟨by simp [List.range'], by simp, ?_⟩
    intro _ k hk1 hk2
    simp only [List.length_nil, Nat.add_zero] at hk2
    omega
  | cons x xs ih =>
    intro fi ti rows h
    cases x with
    | str s =>
      simp only [formatAux] at h
      cases hrec : formatAux (fi + 1) (ti + 1) xs with
      | error e => rw [hrec] at h; exact Except.noConfusion h
      | ok rows1 =>
        simp only [hrec, Except.ok.injEq] at h
        subst h
        obtain ⟨ha, hb, hc⟩ := ih (fi + 1) (ti + 1) rows1 hrec
        refine ⟨?_, ?_, ?_⟩
        · simp only [List.map_cons, List.length_cons, ha, List.range'_succ]
        · intro r hr
          rcases List.mem_cons.1 hr with rfl | hr
          · simp only [List.length_cons]; omega
          · have := hb r hr
            simp only [List.length_cons]
            omega
        · intro hne k hk1 hk2
          rcases Nat.eq_or_lt_of_le hk1 with heq | hk1
          · exact ⟨⟨ti, fi, s⟩, List.mem_cons_self _ _, heq⟩
          · have hne2 : ∀ y ∈ xs, entryNonemptyB y = true :=
              fun y hy => hne y (List.mem_cons_of_mem _ hy)
            obtain ⟨r, hr, hrk⟩ := hc hne2 k hk1 (by simp only [List.length_cons] at hk2; omega)
            exact ⟨r, List.mem_cons_of_mem _ hr, hrk⟩
    | list l2 =>
      simp only [formatAux] at h
      cases hsyn : synRows fi ti (PyItem.list l2) l2 with
      | error e => rw [hsyn] at h; exact Except.noConfusion h
      | ok p =>
        obtain ⟨rs, ti2⟩ := p
        simp only [hsyn] at h
        cases hrec : formatAux (fi + 1) ti2 xs with
        | error e => rw [hrec] at h; exact Except.noConfusion h
        | ok rows1 =>
          simp only [hrec, Except.ok.injEq] at h
          subst h
          obtain ⟨hs1, hs2, hs3, hs4⟩ := synRows_ok fi (PyItem.list l2) l2 ti rs ti2 hsyn
          obtain ⟨ha, hb, hc⟩ := ih (fi + 1) ti2 rows1 hrec
          refine ⟨?_, ?_, ?_⟩
          · rw [List.map_append, hs2, ha, hs3, List.length_append,
              range1_append rs.length ti rows1.length]
          · intro r hr
            rcases List.mem_append.1 hr with hr | hr
            · have := hs1 r hr
              simp only [List.length_cons]
              omega
            · have := hb r hr
              simp only [List.length_cons]
              omega
          · intro hne k hk1 hk2
            rcases Nat.eq_or_lt_of_le hk1 with heq | hk1
            · have hl2 : l2 ≠ [] := by
                have hx := hne _ (List.mem_cons_self (PyItem.list l2) xs)
                simp only [entryNonemptyB, Bool.not_eq_eq_eq_not, Bool.not_true] at hx
                intro he
                rw [he] at hx
                simp at hx
              have hrs : rs ≠ [] := by
                intro he
                apply hl2
                rw [← List.length_eq_zero, ← hs4, he]
                rfl
              obtain ⟨r, hr⟩ := List.exists_mem_of_ne_nil rs hrs
              exact ⟨r, List.mem_append_left _ hr, (hs1 r hr).trans heq⟩
            · have hne2 : ∀ y ∈ xs, entryNonemptyB y = true :=
                fun y hy => hne y (List.mem_cons_of_mem _ hy)
              obtain ⟨r, hr, hrk⟩ := hc hne2 k hk1 (by simp only [List.length_cons] at hk2; omega)
              exact ⟨r, List.mem_append_right _ hr, hrk⟩
    | other r => exact Except.noConfusion (by simpa only [formatAux] using h)

theorem formatAux_ok_of_valid :
    ∀ (l : List PyItem) (fi ti : Nat), (∀ x ∈ l, validEntryB x = true) →
      ∃ rows, formatAux fi ti l = .ok rows := by
  intro l
  induction l with
  | nil => intro fi ti _; exact ⟨[], rfl⟩
  | cons x xs ih =>
    intro fi ti hall
    cases x with
    | str s =>
      obtain ⟨rows, hrec⟩ := ih (fi + 1) (ti + 1) (fun y hy => hall y (List.mem_cons_of_mem _ hy))
      exact ⟨⟨ti, fi, s⟩ :: rows, by simp only [formatAux, hrec]⟩
    | list l2 =>
      have hstr : ∀ c ∈ l2, isStrB c = true := by
        have hx := hall _ (List.mem_cons_self (PyItem.list l2) xs)
        simpa [validEntryB, List.all_eq_true] using hx
      obtain ⟨rs, t, hsyn⟩ := synRows_ok_of_all_str fi (PyItem.list l2) l2 ti hstr
      obtain ⟨rows, hrec⟩ := ih (fi + 1) t (fun y hy => hall y (List.mem_cons_of_mem _ hy))
      exact ⟨rs ++ rows, by simp only [formatAux, hsyn, hrec]⟩
    | other r => exact absurd (hall _ (List.mem_cons_self _ _)) (by simp [validEntryB])

theorem formatAux_error_of_invalid :
    ∀ (l : List PyItem) (fi ti : Nat), (∃ x ∈ l, validEntryB x = false) →
      ∃ e, formatAux fi ti l = .error e := by
  intro l
  induction l with
  | nil => intro fi ti h; exact absurd h (by simp)
  | cons x xs ih =>
    intro fi ti h
    by_cases hx : validEntryB x = true
    · have hxs : ∃ y ∈ xs, validEntryB y = false := by
        rcases h with ⟨z, hz, hzv⟩
        rcases List.mem_cons.1 hz with rfl | hz
        · exact absurd hx (by simp [hzv])
        · exact ⟨z, hz, hzv⟩
      cases x with
      | str s =>
        obtain ⟨e, hrec⟩ := ih (fi + 1) (ti + 1) hxs
        exact ⟨e, by simp only [formatAux, hrec]⟩
      | list l2 =>
        have hstr : ∀ c ∈ l2, isStrB c = true := by
          simpa [validEntryB, List.all_eq_true] using hx
        obtain ⟨rs, t, hsyn⟩ := synRows_ok_of_all_str fi (PyItem.list l2) l2 ti hstr
        obtain ⟨e, hrec⟩ := ih (fi + 1) t hxs
        exact ⟨e, by simp only [formatAux, hsyn, hrec]⟩
      | other r => exact ⟨r ++ errMsgSuffix, rfl⟩
    · simp only [Bool.not_eq_true] at hx
      cases x with
      | str s => exact absurd hx (by simp [validEntryB])
      | list l2 =>
        have hbad : ∃ c ∈ l2, isStrB c = false := by
          simp only [validEntryB] at hx
          rcases List.all_eq_false.1 hx with ⟨c, hc, hcs⟩
          exact ⟨c, hc, by simpa using hcs⟩
        obtain ⟨e, hsyn⟩ := synRows_error_of_bad fi (PyItem.list l2) l2 ti hbad
        exact ⟨e, by simp only [formatAux, hsyn]⟩
      | other r => exact ⟨r ++ errMsgSuffix, rfl⟩

theorem formatAux_error_shape :
    ∀ (l : List PyItem) (fi ti : Nat) (e : String), formatAux fi ti l = .error e →
      ∃ p ∈ l,
        (∃ r, p = PyItem.other r ∧ e = pyRepr p ++ errMsgSuffix) ∨
        (∃ l2 c, p = PyItem.list l2 ∧ c ∈ l2 ∧ isStrB c = false ∧
          e = pyRepr p ++ ">" ++ pyRepr c ++ errMsgSuffix) := by
  intro l
  induction l with
  | nil => intro fi ti e h; exact absurd h (by simp [formatAux])
  | cons x xs ih =>
    intro fi ti e h
    cases x with
    | str s =>
      simp only [formatAux] at h
      cases hrec : formatAux (fi + 1) (ti + 1) xs with
      | error e2 =>
        simp only [hrec, Except.error.injEq] at h
        subst h
        obtain ⟨p, hp, hcase⟩ := ih (fi + 1) (ti + 1) e2 hrec
        exact ⟨p, List.mem_cons_of_mem _ hp, hcase⟩
      | ok rows1 => rw [hrec] at h; exact Except.noConfusion h
    | list l2 =>
      simp only [formatAux] at h
      cases hsyn : synRows fi ti (PyItem.list l2) l2 with
      | error e2 =>
        simp only [hsyn, Except.error.injEq] at h
        subst h
        obtain ⟨c, hc, hcs, hce⟩ := synRows_error_shape fi (PyItem.list l2) l2 ti e2 hsyn
        exact ⟨PyItem.list l2, List.mem_cons_self _ _,
          Or.inr ⟨l2, c, rfl, hc, hcs, hce⟩⟩
      | ok p =>
        obtain ⟨rs, ti2⟩ := p
        simp only [hsyn] at h
        cases hrec : formatAux (fi + 1) ti2 xs with
        | error e2 =>
          simp only [hrec, Except.error.injEq] at h
          subst h
          obtain ⟨p, hp, hcase⟩ := ih (fi + 1) ti2 e2 hrec
          exact ⟨p, List.mem_cons_of_mem _ hp, hcase⟩
        | ok rows1 => rw [hrec] at h; exact Except.noConfusion h
    | other r =>
      simp only [formatAux, Except.error.injEq] at h
      refine ⟨PyItem.other r, List.mem_cons_self _ _, Or.inl ⟨r, rfl, ?_⟩⟩
      simp only [pyRepr, pyReprQ]
      exact h.symm

theorem synRows_eq_specSynRows (fi : Nat) (parent : PyItem) :
    ∀ (l : List PyItem) (ti : Nat) (rs : List FeatureRow) (t : Nat),
      synRows fi ti parent l = .ok (rs, t) → rs = specSynRows fi ti l := by
  intro l
  induction l with
  | nil =>
    intro ti rs t h
    simp only [synRows, Except.ok.injEq, Prod.mk.injEq] at h
    obtain ⟨h1, h2⟩ := h
    subst h1
    rfl
  | cons x rest ih =>
    intro ti rs t h
    cases x with
    | str s =>
      simp only [synRows] at h
      cases hrec : synRows fi (ti + 1) parent rest with
      | error e => rw [hrec] at h; exact Except.noConfusion h
      | ok p =>
        obtain ⟨rs1, t1⟩ := p
        rw [hrec] at h
        simp only [Except.ok.injEq, Prod.mk.injEq] at h
        obtain ⟨h1, h2⟩ := h
        subst h1
        simp only [specSynRows]
        rw [ih (ti + 1) rs1 t1 hrec]
    | list l2 => exact Except.noConfusion (by simpa only [synRows] using h)
    | other r => exact Except.noConfusion (by simpa only [synRows] using h)

theorem formatAux_eq_specCatalog :
    ∀ (l : List PyItem) (fi ti : Nat) (rows : List FeatureRow),
      formatAux fi ti l = .ok rows → rows = specCatalog fi ti l := by
  intro l
  induction l with
  | nil =>
    intro fi ti rows h
    simp only [formatAux, Except.ok.injEq] at h
    subst h
    rfl
  | cons x rest ih =>
    intro fi ti rows h
    cases x with
    | str s =>
      simp only [formatAux] at h
      cases hrec : formatAux (fi + 1) (ti + 1) rest with
      | error e => rw [hrec] at h; exact Except.noConfusion h
      | ok rows1 =>
        rw [hrec] at h
        simp only [Except.ok.injEq] at h
        subst h
        simp only [specCatalog]
        rw [ih (fi + 1) (ti + 1) rows1 hrec]
    | list l2 =>
      simp only [formatAux] at h
      cases hsyn : synRows fi ti (PyItem.list l2) l2 with
      | error e => rw [hsyn] at h; exact Except.noConfusion h
      | ok p =>
        obtain ⟨rs, ti2⟩ := p
        simp only [hsyn] at h
        cases hrec : formatAux (fi + 1) ti2 rest with
        | error e => rw [hrec] at h; exact Except.noConfusion h
        | ok rows1 =>
          rw [hrec] at h
          simp only [Except.ok.injEq] at h
          subst h
          obtain ⟨-, -, h3, h4⟩ := synRows_ok fi (PyItem.list l2) l2 ti rs ti2 hsyn
          have hrs := synRows_eq_specSynRows fi (PyItem.list l2) l2 ti rs ti2 hsyn
          simp only [specCatalog]
          rw [hrs, ih (fi + 1) ti2 rows1 hrec, h3, h4]
    | other r => exact Except.noConfusion (by simpa only [formatAux] using h)

theorem specSynRows_fid :
    ∀ (l : List PyItem) (fi ti : Nat), ∀ r ∈ specSynRows fi ti l, r.feature_id = fi := by
  intro l
  induction l with
  | nil => intro fi ti r hr; simp [specSynRows] at hr
  | cons x rest ih =>
    intro fi ti r hr
    cases x with
    | str s =>
      simp only [specSynRows] at hr
      rcases List.mem_cons.1 hr with rfl | hr
      · rfl
      · exact ih fi (ti + 1) r hr
    | list l2 => simp [specSynRows] at hr
    | other r2 => simp [specSynRows] at hr

theorem specCatalog_fid_lb :
    ∀ (l : List PyItem) (fi ti : Nat), ∀ r ∈ specCatalog fi ti l, fi ≤ r.feature_id := by
  intro l
  induction l with
  | nil => intro fi ti r hr; simp [specCatalog] at hr
  | cons x rest ih =>
    intro fi ti r hr
    cases x with
    | str s =>
      simp only [specCatalog] at hr
      rcases List.mem_cons.1 hr with rfl | hr
      · exact Nat.le.refl
      · have := ih (fi + 1) (ti + 1) r hr
        omega
    | list l2 =>
      simp only [specCatalog] at hr
      rcases List.mem_append.1 hr with hr | hr
      · have := specSynRows_fid l2 fi ti r hr
        omega
      · have := ih (fi + 1) (ti + l2.length) r hr
        omega
    | other r2 =>
      simp only [specCatalog] at hr
      have := ih (fi + 1) ti r hr
      omega

theorem filter_fid_eq_nil_of_lb (rows : List FeatureRow) (k m : Nat)
    (h : ∀ r ∈ rows, m ≤ r.feature_id) (hk : k < m) :
    rows.filter (fun r => r.feature_id == k) = [] := by
  rw [List.filter_eq_nil_iff]
  intro r hr
  have := h r hr
  simp only [beq_iff_eq]
  omega

theorem specSynRows_filter_self (l : List PyItem) (fi ti : Nat) :
    (specSynRows fi ti l).filter (fun r => r.feature_id == fi) = specSynRows fi ti l := by
  rw [List.filter_eq_self]
  intro r hr
  simp [specSynRows_fid l fi ti r hr]

theorem specCatalog_filter_str :
    ∀ (l : List PyItem) (fi ti i : Nat) (s : String), l[i]? = some (PyItem.str s) →
      ∃ t, (specCatalog fi ti l).filter (fun r => r.feature_id == fi + i) = [⟨t, fi + i, s⟩] := by
  intro l
  induction l with
  | nil => intro fi ti i s h; simp at h
  | cons x rest ih =>
    intro fi ti i s h
    cases i with
    | zero =>
      rw [List.getElem?_cons_zero] at h
      injection h with h
      subst h
      refine ⟨ti, ?_⟩
      simp only [specCatalog]
      rw [List.filter_cons_of_pos (by simp)]
      rw [filter_fid_eq_nil_of_lb _ _ (fi + 1)
        (specCatalog_fid_lb rest (fi + 1) (ti + 1)) (by omega)]
      simp
    | succ i =>
      rw [List.getElem?_cons_succ] at h
      have hfi : fi + (i + 1) = (fi + 1) + i := by omega
      cases x with
      | str s2 =>
        obtain ⟨t, ht⟩ := ih (fi + 1) (ti + 1) i s h
        refine ⟨t, ?_⟩
        simp only [specCatalog]
        rw [hfi, List.filter_cons_of_neg (by simp only [beq_iff_eq]; omega)]
        exact ht
      | list l2 =>
        obtain ⟨t, ht⟩ := ih (fi + 1) (ti + l2.length) i s h
        refine ⟨t, ?_⟩
        simp only [specCatalog]
        rw [hfi, List.filter_append]
        have hnil : (specSynRows fi ti l2).filter
            (fun r => r.feature_id == (fi + 1) + i) = [] := by
          rw [List.filter_eq_nil_iff]
          intro r hr
          have := specSynRows_fid l2 fi ti r hr
          simp only [beq_iff_eq]
          omega
        rw [hnil, List.nil_append]
        exact ht
      | other r2 =>
        obtain ⟨t, ht⟩ := ih (fi + 1) ti i s h
        refine ⟨t, ?_⟩
        simp only [specCatalog]
        rw [hfi]
        exact ht

theorem specCatalog_filter_list :
    ∀ (l : List PyItem) (fi ti i : Nat) (l2 : List PyItem),
      l[i]? = some (PyItem.list l2) →
      ∃ t, (specCatalog fi ti l).filter (fun r => r.feature_id == fi + i) =
        specSynRows (fi + i) t l2 := by
  intro l
  induction l with
  | nil => intro fi ti i l2 h; simp at h
  | cons x rest ih =>
    intro fi ti i l2 h
    cases i with
    | zero =>
      rw [List.getElem?_cons_zero] at h
      injection h with h
      subst h
      refine ⟨ti, ?_⟩
      simp only [specCatalog, List.filter_append]
      rw [show fi + 0 = fi from rfl, specSynRows_filter_self]
      rw [filter_fid_eq_nil_of_lb _ _ (fi + 1)
        (specCatalog_fid_lb rest (fi + 1) (ti + l2.length)) (by omega)]
      simp
    | succ i =>
      rw [List.getElem?_cons_succ] at h
      have hfi : fi + (i + 1) = (fi + 1) + i := by omega
      cases x with
      | str s2 =>
        obtain ⟨t, ht⟩ := ih (fi + 1) (ti + 1) i l2 h
        refine ⟨t, ?_⟩
        simp only [specCatalog]
        rw [hfi, List.filter_cons_of_neg (by simp only [beq_iff_eq]; omega)]
        exact ht
      | list l3 =>
        obtain ⟨t, ht⟩ := ih (fi + 1) (ti + l3.length) i l2 h
        refine ⟨t, ?_⟩
        simp only [specCatalog]
        rw [hfi, List.filter_append]
        have hnil : (specSynRows fi ti l3).filter
            (fun r => r.feature_id == (fi + 1) + i) = [] := by
          rw [List.filter_eq_nil_iff]
          intro r hr
          have := specSynRows_fid l3 fi ti r hr
          simp only [beq_iff_eq]
          omega
        rw [hnil, List.nil_append]
        exact ht
      | other r2 =>
        obtain ⟨t, ht⟩ := ih (fi + 1) ti i l2 h
        refine ⟨t, ?_⟩
        simp only [specCatalog]
        rw [hfi]
        exact ht

/-! ### String-primitive lemmas -/

theorem splitAuxF_of_countOcc_zero (sep : List Char) :
    ∀ (fuel : Nat) (s acc : List Char), s.length ≤ fuel → countOccF sep fuel s = 0 →
      splitAuxF sep fuel acc s = [acc.reverse ++ s] := by
  intro fuel
  induction fuel with
  | zero =>
    intro s acc hlen _
    cases s with
    | nil => simp [splitAuxF]
    | cons c rest => simp at hlen
  | succ fuel ih =>
    intro s acc hlen h0
    cases s with
    | nil => simp [splitAuxF]
    | cons c rest =>
      by_cases hp : sep.isPrefixOf (c :: rest) = true
      · simp only [countOccF, hp, if_true] at h0
        omega
      · have hp2 : ¬ (sep.isPrefixOf (c :: rest) = true) := hp
        simp only [countOccF, if_neg hp2] at h0
        simp only [splitAuxF, if_neg hp2]
        have hrest : rest.length ≤ fuel := by
          simp only [List.length_cons] at hlen
          omega
        rw [ih rest (c :: acc) hrest h0]
        simp

theorem splitAuxF_of_countOcc_one (sep : List Char) :
    ∀ (fuel : Nat) (s acc : List Char), s.length ≤ fuel → countOccF sep fuel s = 1 →
      ∃ a, splitAuxF sep fuel acc s = [acc.reverse ++ a, dropThroughFirstF sep fuel s] := by
  intro fuel
  induction fuel with
  | zero =>
    intro s acc hlen h1
    cases s with
    | nil => simp [countOccF] at h1
    | cons c rest => simp at hlen
  | succ fuel ih =>
    intro s acc hlen h1
    cases s with
    | nil => simp [countOccF] at h1
    | cons c rest =>
      have hrest : rest.length ≤ fuel := by
        simp only [List.length_cons] at hlen
        omega
      by_cases hp : sep.isPrefixOf (c :: rest) = true
      · simp only [countOccF, hp, if_true] at h1
        have hz : countOccF sep fuel (List.drop (sep.length - 1) rest) = 0 := by omega
        refine ⟨[], ?_⟩
        simp only [splitAuxF, hp, if_true, dropThroughFirstF]
        rw [splitAuxF_of_countOcc_zero sep fuel _ []
          (by simp only [List.length_drop]; omega) hz]
        simp
      · have hp2 : ¬ (sep.isPrefixOf (c :: rest) = true) := hp
        simp only [countOccF, if_neg hp2] at h1
        obtain ⟨a, ha⟩ := ih rest (c :: acc) hrest h1
        refine ⟨c :: a, ?_⟩
        simp only [splitAuxF, if_neg hp2, dropThroughFirstF]
        rw [ha]
        simp

theorem splitAuxF_length (sep : List Char) :
    ∀ (fuel : Nat) (s acc : List Char), s.length ≤ fuel →
      (splitAuxF sep fuel acc s).length = countOccF sep fuel s + 1 := by
  intro fuel
  induction fuel with
  | zero =>
    intro s acc hlen
    cases s with
    | nil => simp [splitAuxF, countOccF]
    | cons c rest => simp at hlen
  | succ fuel ih =>
    intro s acc hlen
    cases s with
    | nil => simp [splitAuxF, countOccF]
    | cons c rest =>
      have hrest : rest.length ≤ fuel := by
        simp only [List.length_cons] at hlen
        omega
      by_cases hp : sep.isPrefixOf (c :: rest) = true
      · simp only [splitAuxF, countOccF, hp, if_true, List.length_cons]
        rw [ih _ [] (by simp only [List.length_drop]; omega)]
        omega
      · have hp2 : ¬ (sep.isPrefixOf (c :: rest) = true) := hp
        simp only [splitAuxF, countOccF, if_neg hp2]
        exact ih rest (c :: acc) hrest

theorem pySplit_of_countOcc_zero (sep s : List Char) (h : countOcc sep s = 0) :
    pySplit sep s = [s] := by
  have := splitAuxF_of_countOcc_zero sep s.length s [] le_rfl h
  simpa [pySplit] using this

theorem pySplit_of_countOcc_one (sep s : List Char) (h : countOcc sep s = 1) :
    ∃ a, pySplit sep s = [a, dropThroughFirst sep s] := by
  obtain ⟨a, ha⟩ := splitAuxF_of_countOcc_one sep s.length s [] le_rfl h
  refine ⟨a, ?_⟩
  simpa [pySplit, dropThroughFirst] using ha

theorem pySplit_length (sep s : List Char) :
    (pySplit sep s).length = countOcc sep s + 1 :=
  splitAuxF_length sep s.length s [] le_rfl

theorem takeBeforeFirstF_fuel (sep : List Char) :
    ∀ (f1 f2 : Nat) (s : List Char), s.length ≤ f1 → s.length ≤ f2 →
      takeBeforeFirstF sep f1 s = takeBeforeFirstF sep f2 s := by
  intro f1
  induction f1 with
  | zero =>
    intro f2 s h1 _
    cases s with
    | nil => cases f2 <;> rfl
    | cons c rest => simp at h1
  | succ f1 ih =>
    intro f2 s h1 h2
    cases s with
    | nil => cases f2 <;> rfl
    | cons c rest =>
      cases f2 with
      | zero => simp at h2
      | succ f2 =>
        by_cases hp : sep.isPrefixOf (c :: rest) = true
        · simp only [takeBeforeFirstF, if_pos hp]
        · simp only [takeBeforeFirstF, if_neg hp]
          have h1r : rest.length ≤ f1 := by simp only [List.length_cons] at h1; omega
          have h2r : rest.length ≤ f2 := by simp only [List.length_cons] at h2; omega
          rw [ih f2 rest h1r h2r]

theorem dropThroughFirstF_length_le (sep : List Char) :
    ∀ (fuel : Nat) (s : List Char), (dropThroughFirstF sep fuel s).length ≤ s.length := by
  intro fuel
  induction fuel with
  | zero =>
    intro s
    cases s <;> simp [dropThroughFirstF]
  | succ fuel ih =>
    intro s
    cases s with
    | nil => simp [dropThroughFirstF]
    | cons c rest =>
      by_cases hp : sep.isPrefixOf (c :: rest) = true
      · simp only [dropThroughFirstF, if_pos hp, List.length_cons, List.length_drop]
        omega
      · simp only [dropThroughFirstF, if_neg hp, List.length_cons]
        exact le_trans (ih rest) (Nat.le_succ _)

theorem splitAuxF_head (sep : List Char) :
    ∀ (fuel : Nat) (s acc : List Char), s.length ≤ fuel →
      (splitAuxF sep fuel acc s).getD 0 [] = acc.reverse ++ takeBeforeFirstF sep fuel s := by
  intro fuel
  induction fuel with
  | zero =>
    intro s acc h
    cases s with
    | nil => simp [splitAuxF, takeBeforeFirstF]
    | cons c rest => simp at h
  | succ fuel ih =>
    intro s acc h
    cases s with
    | nil => simp [splitAuxF, takeBeforeFirstF]
    | cons c rest =>
      have hr : rest.length ≤ fuel := by simp only [List.length_cons] at h; omega
      by_cases hp : sep.isPrefixOf (c :: rest) = true
      · simp only [splitAuxF, takeBeforeFirstF, if_pos hp]
        simp
      · simp only [splitAuxF, takeBeforeFirstF, if_neg hp]
        rw [ih rest (c :: acc) hr]
        simp

theorem splitAuxF_getD_one_F (sep : List Char) :
    ∀ (fuel : Nat) (s acc : List Char), s.length ≤ fuel → countOccF sep fuel s ≠ 0 →
      (splitAuxF sep fuel acc s).getD 1 [] =
        takeBeforeFirstF sep fuel (dropThroughFirstF sep fuel s) := by
  intro fuel
  induction fuel with
  | zero =>
    intro s acc h h0
    cases s with
    | nil => simp [countOccF] at h0
    | cons c rest => simp at h
  | succ fuel ih =>
    intro s acc h h0
    cases s with
    | nil => simp [countOccF] at h0
    | cons c rest =>
      have hr : rest.length ≤ fuel := by simp only [List.length_cons] at h; omega
      by_cases hp : sep.isPrefixOf (c :: rest) = true
      · simp only [splitAuxF, dropThroughFirstF, if_pos hp]
        have hdl : (List.drop (sep.length - 1) rest).length ≤ fuel := by
          simp only [List.length_drop]
          omega
        rw [List.getD_cons_succ, splitAuxF_head sep fuel _ [] hdl]
        simp only [List.reverse_nil, List.nil_append]
        exact takeBeforeFirstF_fuel sep fuel (fuel + 1) _ hdl (le_trans hdl (Nat.le_succ _))
      · simp only [countOccF, if_neg hp] at h0
        simp only [splitAuxF, dropThroughFirstF, if_neg hp]
        rw [ih rest (c :: acc) hr h0]
        have hd : (dropThroughFirstF sep fuel rest).length ≤ fuel :=
          le_trans (dropThroughFirstF_length_le sep fuel rest) hr
        exact takeBeforeFirstF_fuel sep fuel (fuel + 1) _ hd (le_trans hd (Nat.le_succ _))

theorem pySplit_getD_one (sep s : List Char) (h : countOcc sep s ≠ 0) :
    (pySplit sep s).getD 1 [] = takeBeforeFirst sep (dropThroughFirst sep s) := by
  have hmain := splitAuxF_getD_one_F sep s.length s [] le_rfl h
  have hdlen : (dropThroughFirstF sep s.length s).length ≤ s.length :=
    dropThroughFirstF_length_le sep s.length s
  unfold pySplit takeBeforeFirst dropThroughFirst
  rw [hmain]
  exact takeBeforeFirstF_fuel sep s.length _ _ hdlen le_rfl

theorem countOcc_ne_zero_of_prefix (sep s : List Char) (hne : sep ≠ [])
    (h : sep.isPrefixOf s = true) : countOcc sep s ≠ 0 := by
  cases s with
  | nil =>
    cases sep with
    | nil => exact absurd rfl hne
    | cons a t => simp [List.isPrefixOf] at h
  | cons c rest =>
    unfold countOcc
    simp only [List.length_cons, countOccF, if_pos h]
    omega

/-! ### Reader-loop lemmas -/

theorem foldl_recordFeature_frame (doc : Int) (sid : Nat) :
    ∀ (l : List (List Char)) (st : RState),
      (l.foldl (recordFeature doc sid) st).doc_id = st.doc_id ∧
      (l.foldl (recordFeature doc sid) st).section_id = st.section_id ∧
      (l.foldl (recordFeature doc sid) st).section_list = st.section_list := by
  intro l
  induction l with
  | nil => intro st; exact ⟨rfl, rfl, rfl⟩
  | cons f fs ih => intro st; exact ih (recordFeature doc sid st f)

theorem processLine_ok_parts :
    ∀ (line : List Char) (st st2 : RState), processLine line st = .ok st2 →
      st2.section_id = st.section_id + 1 ∧
      List.map SectionR.section_id st2.section_list =
        List.map SectionR.section_id st.section_list ++ [st.section_id] := by
  intro line st st2 h
  unfold processLine at h
  by_cases h1 : containsSub tMark line = true
  · rw [if_pos h1] at h
    injection h with h
    subst h
    exact ⟨rfl, by simp⟩
  · rw [if_neg h1] at h
    by_cases h2 : pyStartsWith starMark line = true
    · rw [if_pos h2] at h
      injection h with h
      subst h
      exact ⟨rfl, by simp⟩
    · rw [if_neg h2] at h
      rcases hps : pySplit hashMark line with _ | ⟨p0, _ | ⟨p1, ps⟩⟩ <;> rw [hps] at h
      · replace h : Except.ok _ = Except.ok st2 := h
        injection h with h
        subst h
        refine ⟨rfl, ?_⟩
        obtain ⟨-, -, hsec⟩ := foldl_recordFeature_frame st.doc_id st.section_id
          (pySplit commaMark (([] : List (List Char)).getD 0 [])) st
        dsimp only
        split
        · rw [hsec]; simp
        · simp
      · exact Except.noConfusion h
      · replace h : Except.ok _ = Except.ok st2 := h
        injection h with h
        subst h
        refine ⟨rfl, ?_⟩
        obtain ⟨-, -, hsec⟩ := foldl_recordFeature_frame st.doc_id st.section_id
          (pySplit commaMark ((p0 :: p1 :: ps).getD 0 [])) st
        dsimp only
        split
        · rw [hsec]; simp
        · simp

theorem processLine_ok_exists :
    ∀ (line : List Char) (st : RState), lineOk line = true →
      ∃ st2, processLine line st = .ok st2 := by
  intro line st hok
  unfold processLine
  by_cases h1 : containsSub tMark line = true
  · rw [if_pos h1]; exact ⟨_, rfl⟩
  · rw [if_neg h1]
    by_cases h2 : pyStartsWith starMark line = true
    · rw [if_pos h2]; exact ⟨_, rfl⟩
    · rw [if_neg h2]
      have h3 : containsSub hashMark line = true := by
        simp only [lineOk, Bool.or_eq_true] at hok
        rcases hok with (hok | hok) | hok
        · exact absurd hok h1
        · exact absurd hok h2
        · exact hok
      have hc : countOcc hashMark line ≠ 0 := by
        simpa [containsSub] using h3
      have hlen := pySplit_length hashMark line
      rcases hps : pySplit hashMark line with _ | ⟨p0, _ | ⟨p1, ps⟩⟩ <;> rw [hps] at hlen
      · simp only [List.length_nil] at hlen
        exact (by omega : False).elim
      · simp only [List.length_cons, List.length_nil] at hlen
        exact (by omega : False).elim
      · exact ⟨_, rfl⟩

theorem processLine_error_of_bad :
    ∀ (line : List Char) (st : RState),
      containsSub tMark line = false → pyStartsWith starMark line = false →
      containsSub hashMark line = false →
      processLine line st = .error indexErrMsg := by
  intro line st h1 h2 h3
  unfold processLine
  rw [if_neg (by simp [h1]), if_neg (by simp [h2])]
  have hc : countOcc hashMark line = 0 := by
    simpa [containsSub] using h3
  rw [pySplit_of_countOcc_zero hashMark line hc]

theorem processLine_body_doc :
    ∀ (line : List Char) (st st2 : RState),
      containsSub tMark line = false → pyStartsWith starMark line = false →
      processLine line st = .ok st2 → st2.doc_id = st.doc_id := by
  intro line st st2 h1 h2 h
  unfold processLine at h
  rw [if_neg (by simp [h1]), if_neg (by simp [h2])] at h
  rcases hps : pySplit hashMark line with _ | ⟨p0, _ | ⟨p1, ps⟩⟩ <;> rw [hps] at h
  · replace h : Except.ok _ = Except.ok st2 := h
    injection h with h
    subst h
    obtain ⟨hdoc, -, -⟩ := foldl_recordFeature_frame st.doc_id st.section_id
      (pySplit commaMark (([] : List (List Char)).getD 0 [])) st
    dsimp only
    split
    · exact hdoc
    · rfl
  · exact Except.noConfusion h
  · replace h : Except.ok _ = Except.ok st2 := h
    injection h with h
    subst h
    obtain ⟨hdoc, -, -⟩ := foldl_recordFeature_frame st.doc_id st.section_id
      (pySplit commaMark ((p0 :: p1 :: ps).getD 0 [])) st
    dsimp only
    split
    · exact hdoc
    · rfl

theorem readAux_ids (nl : Option Int) :
    ∀ (lines : List (List Char)) (st stf : RState),
      readAux nl lines st = .ok stf →
      List.map SectionR.section_id st.section_list = List.range st.section_id →
      List.map SectionR.section_id stf.section_list = List.range stf.section_id := by
  intro lines
  induction lines with
  | nil =>
    intro st stf h hinv
    replace h : Except.ok st = Except.ok stf := h
    injection h with h
    subst h
    exact hinv
  | cons line rest ih =>
    intro st stf h hinv
    unfold readAux at h
    cases hp : processLine line st with
    | error e =>
      rw [hp] at h
      exact Except.noConfusion h
    | ok st2 =>
      rw [hp] at h
      obtain ⟨hsid, hmap⟩ := processLine_ok_parts line st st2 hp
      have hinv2 : List.map SectionR.section_id st2.section_list = List.range st2.section_id := by
        rw [hmap, hinv, hsid, List.range_succ]
      cases nl with
      | none =>
        replace h : readAux none rest st2 = Except.ok stf := h
        exact ih st2 stf h hinv2
      | some n =>
        replace h : (if (st2.section_id : Int) ≥ n then Except.ok st2
          else readAux (some n) rest st2) = Except.ok stf := h
        by_cases hstop : (st2.section_id : Int) ≥ n
        · rw [if_pos hstop] at h
          injection h with h
          subst h
          exact hinv2
        · rw [if_neg hstop] at h
          exact ih st2 stf h hinv2

theorem readAux_count_none :
    ∀ (lines : List (List Char)) (st stf : RState),
      readAux none lines st = .ok stf → stf.section_id = st.section_id + lines.length := by
  intro lines
  induction lines with
  | nil =>
    intro st stf h
    replace h : Except.ok st = Except.ok stf := h
    injection h with h
    subst h
    simp
  | cons line rest ih =>
    intro st stf h
    unfold readAux at h
    cases hp : processLine line st with
    | error e =>
      rw [hp] at h
      exact Except.noConfusion h
    | ok st2 =>
      rw [hp] at h
      replace h : readAux none rest st2 = Except.ok stf := h
      have hrec := ih st2 stf h
      obtain ⟨hsid, -⟩ := processLine_ok_parts line st st2 hp
      simp only [List.length_cons]
      omega

theorem readAux_count_some (n : Int) :
    ∀ (lines : List (List Char)) (st stf : RState),
      readAux (some n) lines st = .ok stf → (st.section_id : Int) < n →
      (stf.section_id : Int) = min ((st.section_id : Int) + lines.length) n := by
  intro lines
  induction lines with
  | nil =>
    intro st stf h hlt
    replace h : Except.ok st = Except.ok stf := h
    injection h with h
    subst h
    simp only [List.length_nil, Nat.cast_zero, add_zero]
    omega
  | cons line rest ih =>
    intro st stf h hlt
    unfold readAux at h
    cases hp : processLine line st with
    | error e =>
      rw [hp] at h
      exact Except.noConfusion h
    | ok st2 =>
      rw [hp] at h
      replace h : (if (st2.section_id : Int) ≥ n then Except.ok st2
        else readAux (some n) rest st2) = Except.ok stf := h
      obtain ⟨hsid, -⟩ := processLine_ok_parts line st st2 hp
      have hcast : (st2.section_id : Int) = (st.section_id : Int) + 1 := by
        exact_mod_cast congrArg (fun k : Nat => (k : Int)) hsid
      by_cases hstop : (st2.section_id : Int) ≥ n
      · rw [if_pos hstop] at h
        injection h with h
        subst h
        simp only [List.length_cons]
        push_cast
        omega
      · rw [if_neg hstop] at h
        have hrec := ih st2 stf h (lt_of_not_ge hstop)
        simp only [List.length_cons]
        simp only [List.length_cons] at hrec
        push_cast at hrec ⊢
        omega

theorem readAux_app_error :
    ∀ (pre : List (List Char)) (bad : List Char) (rest : List (List Char)) (st : RState),
      (∀ l ∈ pre, lineOk l = true) → lineOk bad = false →
      readAux none (pre ++ bad :: rest) st = .error indexErrMsg := by
  intro pre
  induction pre with
  | nil =>
    intro bad rest st _ hbad
    obtain ⟨⟨hA, hB⟩, hC⟩ : (containsSub tMark bad = false ∧
        pyStartsWith starMark bad = false) ∧ containsSub hashMark bad = false := by
      simpa [lineOk] using hbad
    simp only [List.nil_append]
    unfold readAux
    rw [processLine_error_of_bad bad st hA hB hC]
  | cons line pre ih =>
    intro bad rest st hpre hbad
    obtain ⟨st2, hst2⟩ := processLine_ok_exists line st (hpre line (List.mem_cons_self _ _))
    simp only [List.cons_append]
    unfold readAux
    rw [hst2]
    exact ih bad rest st2 (fun l hl => hpre l (List.mem_cons_of_mem _ hl)) hbad

/-! ### Claims C4, C5, C6 -/

/-- C4 (amended): whenever `read_annotated_data` returns, the
`section_id`s of the returned sections are `0, 1, 2, ...` — strictly
increasing and covering exactly the lines read; without `nlines` all
lines are read, and for a provided `nlines = n` with `n ≥ 1` the number
of sections is `min(number of lines, n)`, hence never exceeds `n`.  (The
claim as frozen quantifies over every provided `max_sections` value; it
fails for `n = 0`, see the counterexample, because the source checks the
bound only after appending a section.) -/
theorem c4_section_ids_dense_and_bounded :
    ∀ (lines : List (List Char)) (nl : Option Int) (stf : RState),
      read_annotated_data lines nl = .ok stf →
      List.map SectionR.section_id stf.section_list = List.range stf.section_list.length ∧
      (nl = none → stf.section_list.length = lines.length) ∧
      (∀ n : Int, nl = some n → 1 ≤ n →
        (stf.section_list.length : Int) = min (lines.length : Int) n) := by
  intro lines nl stf h
  have hids := readAux_ids nl lines initState stf h (by simp [initState])
  have hlen : stf.section_list.length = stf.section_id := by
    have hcg := congrArg List.length hids
    simpa using hcg
  refine ⟨by rw [hlen]; exact hids, ?_, ?_⟩
  · rintro rfl
    have hcount := readAux_count_none lines initState stf h
    simp only [initState] at hcount
    omega
  · rintro n rfl hn
    have hcount := readAux_count_some n lines initState stf h (by simp [initState]; omega)
    simp only [initState, Nat.cast_zero, zero_add] at hcount
    have hcast : (stf.section_list.length : Int) = (stf.section_id : Int) := by
      exact_mod_cast congrArg (fun k : Nat => (k : Int)) hlen
    omega

/-- C4 counterexample: the claim asserts the number of returned sections
never exceeds a provided `max_sections`; with `nlines = 0` the source
still appends the first section before checking the bound, so a
one-line file yields one section, exceeding the bound 0. -/
theorem c4_counterexample :
    read_annotated_data [chars "[t] Hi"] (some 0) =
      .ok ⟨0, 1, [⟨0, 0, chars "hi", true⟩], [], []⟩ ∧
    ¬ (((RState.mk 0 1 [⟨0, 0, chars "hi", true⟩] [] []).section_list.length : Int) ≤ 0) :=
  ⟨rfl, by decide⟩

/-- C4 witness: the amended theorem applied to a one-line file with
`nlines = 3`. -/
theorem c4_witness :
    (((RState.mk 0 1 [⟨0, 0, chars "hi", true⟩] [] []).section_list.length : Int)) =
      min (([chars "[t] Hi"].length : Int)) 3 :=
  (c4_section_ids_dense_and_bounded [chars "[t] Hi"] (some 3)
    ⟨0, 1, [⟨0, 0, chars "hi", true⟩], [], []⟩ rfl).2.2 3 rfl (by norm_num)

/-- C5 (amended): every line containing `[t]` (or, failing that,
starting with `*`) increments `doc_id` and is appended as a title
section whose text is the segment between the first marker and the next
occurrence of the marker (or the end of the line), trimmed and
lowercased — this equals "everything after the first marker" exactly
when the marker occurs once (last two conjuncts), and differs otherwise
(see the counterexample, since `line.split(marker)[1]` stops at the
second occurrence); `doc_id` is unchanged on every other kind of line. -/
theorem c5_title_lines :
    ∀ (line : List Char) (st st2 : RState), processLine line st = .ok st2 →
      (containsSub tMark line = true →
        st2.doc_id = st.doc_id + 1 ∧
        st2.section_list = st.section_list ++
          [⟨st.doc_id + 1, st.section_id,
            pyLower (pyStrip (takeBeforeFirst tMark (dropThroughFirst tMark line))), true⟩]) ∧
      (containsSub tMark line = false → pyStartsWith starMark line = true →
        st2.doc_id = st.doc_id + 1 ∧
        st2.section_list = st.section_list ++
          [⟨st.doc_id + 1, st.section_id,
            pyLower (pyStrip (takeBeforeFirst starMark (dropThroughFirst starMark line))), true⟩]) ∧
      (containsSub tMark line = false → pyStartsWith starMark line = false →
        st2.doc_id = st.doc_id) ∧
      (countOcc tMark line = 1 →
        takeBeforeFirst tMark (dropThroughFirst tMark line) = dropThroughFirst tMark line) ∧
      (countOcc starMark line = 1 →
        takeBeforeFirst starMark (dropThroughFirst starMark line) =
          dropThroughFirst starMark line) := by
  intro line st st2 h
  refine ⟨?_, ?_, ?_, ?_, ?_⟩
  · intro h1
    have hc : countOcc tMark line ≠ 0 := by simpa [containsSub] using h1
    unfold processLine at h
    rw [if_pos h1] at h
    injection h with h
    subst h
    refine ⟨rfl, ?_⟩
    rw [pySplit_getD_one tMark line hc]
  · intro h1 h2
    have hc : countOcc starMark line ≠ 0 :=
      countOcc_ne_zero_of_prefix starMark line (by decide) h2
    unfold processLine at h
    rw [if_neg (by simp [h1]), if_pos h2] at h
    injection h with h
    subst h
    refine ⟨rfl, ?_⟩
    rw [pySplit_getD_one starMark line hc]
  · intro h1 h2
    exact processLine_body_doc line st st2 h1 h2 h
  · intro hc1
    obtain ⟨a, ha⟩ := pySplit_of_countOcc_one tMark line hc1
    have h2 := pySplit_getD_one tMark line (by simp [hc1])
    rw [ha] at h2
    simpa using h2.symm
  · intro hc1
    obtain ⟨a, ha⟩ := pySplit_of_countOcc_one starMark line hc1
    have h2 := pySplit_getD_one starMark line (by simp [hc1])
    rw [ha] at h2
    simpa using h2.symm

/-- C5 counterexample: on the title line `*a*b` the source stores the
text `a` (the piece between the first and second `*`), while the claim's
"everything after the first marker", trimmed and lowercased, is `a*b`. -/
theorem c5_counterexample :
    read_annotated_data [chars "*a*b"] none =
      .ok ⟨0, 1, [⟨0, 0, chars "a", true⟩], [], []⟩ ∧
    pyLower (pyStrip (dropThroughFirst starMark (chars "*a*b"))) = chars "a*b" ∧
    chars "a" ≠ chars "a*b" :=
  ⟨rfl, rfl, by decide⟩

/-- C5 witness: the title-line conjunct of the amended theorem applied
to the line `[t] Hi`. -/
theorem c5_witness :
    (RState.mk 0 1 [⟨0, 0, chars "hi", true⟩] [] []).doc_id = initState.doc_id + 1 ∧
    (RState.mk 0 1 [⟨0, 0, chars "hi", true⟩] [] []).section_list =
      initState.section_list ++ [⟨initState.doc_id + 1, initState.section_id,
        pyLower (pyStrip (takeBeforeFirst tMark (dropThroughFirst tMark (chars "[t] Hi")))),
        true⟩] :=
  (c5_title_lines (chars "[t] Hi") initState
    (RState.mk 0 1 [⟨0, 0, chars "hi", true⟩] [] []) rfl).1 (by decide)

/-- C6 (amended): on the first body line lacking `##` the parse aborts
(strict policy) — but with the generic Python `IndexError`
("list index out of range"), which does not name the offending line
number (the claim's `MalformedLine` with a line number does not exist in
the source). -/
theorem c6_missing_delimiter_aborts :
    ∀ (pre : List (List Char)) (bad : List Char) (rest : List (List Char)),
      (∀ l ∈ pre, lineOk l = true) → lineOk bad = false →
      read_annotated_data (pre ++ bad :: rest) none = .error indexErrMsg := by
  intro pre bad rest hpre hbad
  exact readAux_app_error pre bad rest initState hpre hbad

/-- C6 counterexample: the claim says the error reports the offending
line number; the source raises the same digit-free
`list index out of range` message whether the bad body line is the first
line or the third, so no line number is reported. -/
theorem c6_counterexample :
    read_annotated_data [chars "no delimiter"] none = .error indexErrMsg ∧
    read_annotated_data [chars "[t] a", chars "* b", chars "no delimiter"] none =
      .error indexErrMsg ∧
    ∀ c ∈ indexErrMsg, ¬ c.isDigit :=
  ⟨rfl, rfl, by decide⟩

/-- C6 witness: the amended theorem applied to a two-line file whose
second line lacks the delimiter. -/
theorem c6_witness :
    read_annotated_data [chars "[t] ok", chars "oops"] none = .error indexErrMsg :=
  c6_missing_delimiter_aborts [chars "[t] ok"] (chars "oops") [] (by decide) (by decide)

/-! ### Claims C7, C8, C9 -/

/-- C7: `format_feature_list` gives each top-level string its own
`feature_id` (for every input: when entry `i` is a string `s`, exactly
one returned row — carrying `s` — has `feature_id = i`), groups all
strings of a nested list under one shared `feature_id` (when entry `i`
is a nested list, the rows with `feature_id = i` are exactly one row per
string of that list, all sharing id `i`, in order), and assigns every
element a unique sequential `feature_term_id` (`0, 1, 2, ...`); in
particular on `["a", ["b", "c"]]` it yields feature ids a↦0, b↦1, c↦1
and term ids a↦0, b↦1, c↦2. -/
theorem c7_format_feature_list_ids :
    (format_feature_list [PyItem.str "a", PyItem.list [PyItem.str "b", PyItem.str "c"]] =
      .ok [⟨0, 0, "a"⟩, ⟨1, 1, "b"⟩, ⟨2, 1, "c"⟩]) ∧
    ∀ (l : List PyItem) (rows : List FeatureRow), format_feature_list l = .ok rows →
      List.map FeatureRow.feature_term_id rows = List.range rows.length ∧
      (∀ (i : Nat) (s : String), l[i]? = some (PyItem.str s) →
        ∃ t, rows.filter (fun r => r.feature_id == i) = [⟨t, i, s⟩]) ∧
      (∀ (i : Nat) (l2 : List PyItem), l[i]? = some (PyItem.list l2) →
        ∃ t, rows.filter (fun r => r.feature_id == i) = specSynRows i t l2) := by
  refine ⟨rfl, ?_⟩
  intro l rows h
  have hspec := formatAux_eq_specCatalog l 0 0 rows h
  refine ⟨?_, ?_, ?_⟩
  · rw [List.range_eq_range']
    exact (formatAux_ok l 0 0 rows h).1
  · intro i s hi
    obtain ⟨t, ht⟩ := specCatalog_filter_str l 0 0 i s hi
    refine ⟨t, ?_⟩
    rw [hspec]
    simpa [Nat.zero_add] using ht
  · intro i l2 hi
    obtain ⟨t, ht⟩ := specCatalog_filter_list l 0 0 i l2 hi
    refine ⟨t, ?_⟩
    rw [hspec]
    simpa [Nat.zero_add] using ht

/-- C7 witness: the general conjuncts applied to the input `["q"]`. -/
theorem c7_witness :
    List.map FeatureRow.feature_term_id [(⟨0, 0, "q"⟩ : FeatureRow)] = List.range 1 :=
  (c7_format_feature_list_ids.2 [PyItem.str "q"] [⟨0, 0, "q"⟩] rfl).1

/-- C8 counterexample: on `[[], "a"]` the empty nested list still
consumes `feature_id` 0, so the only returned row has `feature_id` 1
and the ids are not a dense 0-based range. -/
theorem c8_counterexample :
    format_feature_list [PyItem.list [], PyItem.str "a"] = .ok [⟨0, 1, "a"⟩] ∧
    ¬ denseIds [(⟨0, 1, "a"⟩ : FeatureRow)] :=
  ⟨rfl, by decide⟩

/-- C8 (amended): when `format_feature_list` succeeds and no top-level
entry is an empty sequence, the returned `feature_id`s are a dense
0-based range: every integer up to any assigned id is assigned. -/
theorem c8_dense_feature_ids :
    ∀ (l : List PyItem) (rows : List FeatureRow), format_feature_list l = .ok rows →
      (∀ x ∈ l, entryNonemptyB x = true) → denseIds rows := by
  intro l rows h hne
  obtain ⟨-, hb, hc⟩ := formatAux_ok l 0 0 rows h
  intro r hr k hk
  have hrb := hb r hr
  exact hc hne k (Nat.zero_le k) (by omega)

/-- C8 witness: the amended theorem applied to `["q"]`. -/
theorem c8_witness : denseIds [(⟨0, 0, "q"⟩ : FeatureRow)] :=
  c8_dense_feature_ids [PyItem.str "q"] [⟨0, 0, "q"⟩] rfl (by decide)

/-- C9: `format_feature_list` fails exactly when some top-level entry is
neither a string nor a list of strings; an error returns no rows (no
partial catalog), and the `ValueError` message carries the `str()` of
the offending entry — prefixed by the `str()` of its parent list when
the offender is a nested non-string. -/
theorem c9_invalid_spec_errors :
    ∀ l : List PyItem,
      ((∃ e, format_feature_list l = .error e) ↔ ∃ x ∈ l, validEntryB x = false) ∧
      (∀ e, format_feature_list l = .error e →
        ∃ p ∈ l,
          (∃ r, p = PyItem.other r ∧ e = pyRepr p ++ errMsgSuffix) ∨
          (∃ l2 c, p = PyItem.list l2 ∧ c ∈ l2 ∧ isStrB c = false ∧
            e = pyRepr p ++ ">" ++ pyRepr c ++ errMsgSuffix)) := by
  intro l
  constructor
  · constructor
    · rintro ⟨e, he⟩
      by_contra hno
      push_neg at hno
      have hall : ∀ x ∈ l, validEntryB x = true := by
        intro x hx
        have hne := hno x hx
        revert hne
        cases validEntryB x <;> simp
      obtain ⟨rows, hok⟩ := formatAux_ok_of_valid l 0 0 hall
      unfold format_feature_list at he
      rw [hok] at he
      exact Except.noConfusion he
    · rintro ⟨x, hx, hxv⟩
      obtain ⟨e, he⟩ := formatAux_error_of_invalid l 0 0 ⟨x, hx, hxv⟩
      exact ⟨e, he⟩
  · intro e he
    exact formatAux_error_shape l 0 0 e he

/-- C9 witness: the failure criterion applied to the input `[3]` (a
number is neither a string nor a list of strings). -/
theorem c9_witness :
    ∃ e, format_feature_list [PyItem.other "3"] = .error e :=
  (c9_invalid_spec_errors [PyItem.other "3"]).1.mpr (by decide)

/-! ### Model-builder lemmas and claims C1, C3, C10 -/

theorem allWords_cons (s : SectionT) (ts : List SectionT) :
    allWords (s :: ts) = s.tokens ++ allWords ts := rfl

theorem mem_allWords (ts : List SectionT) (w : String) :
    w ∈ allWords ts ↔ ∃ s ∈ ts, w ∈ s.tokens := by
  induction ts with
  | nil => simp [allWords]
  | cons s rest ih =>
    rw [allWords_cons]
    simp [List.mem_append, ih]

theorem tfidf_ge_one (ts : List SectionT) (fs : List FeatureRow) (f : Nat) (w : String) :
    (1 : ℝ) ≤ tfidf ts fs f w := by
  unfold tfidf
  have hA : 0 ≤ Real.logb 2 (1 + (feature_word_counter ts fs f w : ℝ)) :=
    Real.logb_nonneg (by norm_num) (le_add_of_nonneg_right (Nat.cast_nonneg _))
  have hB : 0 ≤ Real.logb 2
      (1 + (section_count ts : ℝ) / (word_section_counter ts w : ℝ)) :=
    Real.logb_nonneg (by norm_num)
      (le_add_of_nonneg_right (div_nonneg (Nat.cast_nonneg _) (Nat.cast_nonneg _)))
  nlinarith

theorem model_feature_norm_pos (ts : List SectionT) (fs : List FeatureRow) (f : Nat)
    (hne : (vocab ts).Nonempty) : 0 < model_feature_norm ts fs f := by
  have h1 : ∀ w ∈ vocab ts, (1 : ℝ) ≤ tfidf ts fs f w := fun w _ => tfidf_ge_one ts fs f w
  have h2 := Finset.card_nsmul_le_sum (vocab ts) (tfidf ts fs f) 1 h1
  have hcard : 0 < (vocab ts).card := Finset.card_pos.2 hne
  unfold model_feature_norm
  calc (0 : ℝ) < ((vocab ts).card : ℝ) := by exact_mod_cast hcard
    _ = (vocab ts).card • (1 : ℝ) := by simp
    _ ≤ ∑ w ∈ vocab ts, tfidf ts fs f w := h2

/-- C1: for every feature id, the raw score of each vocabulary word is
`log2(1 + feature_word_count) * log2(1 + total_sections / sections_containing) + 1`,
and dividing by the per-feature sum of raw scores makes
`model_feature[f]` a proper distribution: it sums to 1 over the
vocabulary (whenever the vocabulary is nonempty, so that the sum is
nonzero). -/
theorem c1_model_feature_sums_to_one :
    ∀ (ts : List SectionT) (fs : List FeatureRow) (f : Nat), (vocab ts).Nonempty →
      (∀ w, model_feature ts fs f w = tfidf ts fs f w / model_feature_norm ts fs f) ∧
      ∑ w ∈ vocab ts, model_feature ts fs f w = 1 := by
  intro ts fs f hne
  refine ⟨fun w => rfl, ?_⟩
  unfold model_feature
  rw [← Finset.sum_div]
  exact div_self (ne_of_gt (model_feature_norm_pos ts fs f hne))

/-- C1 witness: the distribution property on a one-section, one-word
corpus with an empty feature catalog. -/
theorem c1_witness :
    ∑ w ∈ vocab [⟨0, ["x"]⟩], model_feature [⟨0, ["x"]⟩] [] 0 w = 1 :=
  (c1_model_feature_sums_to_one [⟨0, ["x"]⟩] [] 0 (by decide)).2

/-- The corpus of the C3 analysis: two sections, tokens x x x and y. -/
def ts3 : List SectionT := [⟨0, ["x", "x", "x"]⟩, ⟨1, ["y"]⟩]

/-- The feature catalog of the C3 analysis: one feature whose term `z`
occurs in no section. -/
def fs3 : List FeatureRow := [⟨0, 0, "z"⟩]

/-- C3 counterexample: for the feature `z` that co-occurs with no
section, the source silently produces the uniform distribution
(1/2 per word here), which differs from the background model
(3/4 for `x`), so the topic model does not degenerate to the
`BackgroundModel`; no diagnostic exists. -/
theorem c3_counterexample :
    model_feature ts3 fs3 0 "x" = 1 / 2 ∧
    model_background ts3 "x" = 3 / 4 ∧
    model_feature ts3 fs3 0 "x" ≠ model_background ts3 "x" := by
  have hfx : feature_word_counter ts3 fs3 0 "x" = 0 := by decide
  have hfy : feature_word_counter ts3 fs3 0 "y" = 0 := by decide
  have htx : tfidf ts3 fs3 0 "x" = 1 := by
    unfold tfidf
    rw [hfx]
    simp
  have hty : tfidf ts3 fs3 0 "y" = 1 := by
    unfold tfidf
    rw [hfy]
    simp
  have hvocab : vocab ts3 = {"x", "y"} := by decide
  have hnorm : model_feature_norm ts3 fs3 0 = 2 := by
    unfold model_feature_norm
    rw [hvocab, Finset.sum_insert (by decide), Finset.sum_singleton, htx, hty]
    norm_num
  have hmf : model_feature ts3 fs3 0 "x" = 1 / 2 := by
    unfold model_feature
    rw [htx, hnorm]
  have hbg : model_background ts3 "x" = 3 / 4 := by
    unfold model_background
    have h1 : collection_word_counts ts3 "x" = 3 := by decide
    have h2 : vocabulary_size ts3 = 4 := by decide
    rw [h1, h2]
    norm_num
  refine ⟨hmf, hbg, ?_⟩
  rw [hmf, hbg]
  norm_num

/-- C3 (amended): if a feature id never co-occurs with any section,
`build_explicit_models` does not fail: every raw score degenerates to 1
and the feature's topic model becomes the uniform distribution
1/|vocabulary| over the vocabulary — which in general differs from the
`BackgroundModel` (see the counterexample), and no diagnostic is
emitted by the source. -/
theorem c3_no_cooccurrence_uniform :
    ∀ (ts : List SectionT) (fs : List FeatureRow) (f : Nat),
      (∀ r ∈ fs, r.feature_id = f → ∀ s ∈ ts, r.feature ∉ s.tokens) →
      (vocab ts).Nonempty →
      ∀ w ∈ vocab ts, model_feature ts fs f w = 1 / ((vocab ts).card : ℝ) := by
  intro ts fs f hnone hne w hw
  have hfwc : ∀ u, feature_word_counter ts fs f u = 0 := by
    intro u
    unfold feature_word_counter
    rw [List.countP_eq_zero]
    intro s hs
    simp only [Bool.and_eq_true, not_and]
    intro hA _
    have hmem : f ∈ (fs.filter (fun r => s.tokens.contains r.feature)).map
        FeatureRow.feature_id := by
      have hA2 : f ∈ sectionFoundFeatureIds fs s.tokens := by simpa using hA
      exact List.mem_dedup.1 (by simpa [sectionFoundFeatureIds] using hA2)
    obtain ⟨r, hr, hrf⟩ := List.mem_map.1 hmem
    obtain ⟨hrfs, hrtok⟩ := List.mem_filter.1 hr
    exact hnone r hrfs hrf s hs (by simpa using hrtok)
  have htf : ∀ u, tfidf ts fs f u = 1 := by
    intro u
    unfold tfidf
    rw [hfwc u]
    simp
  have hnorm : model_feature_norm ts fs f = ((vocab ts).card : ℝ) := by
    unfold model_feature_norm
    rw [Finset.sum_congr rfl (fun u _ => htf u)]
    simp
  unfold model_feature
  rw [htf w, hnorm]

/-- C3 witness: the amended theorem applied to the concrete corpus of
the counterexample. -/
theorem c3_witness :
    model_feature ts3 fs3 0 "x" = 1 / ((vocab ts3).card : ℝ) :=
  c3_no_cooccurrence_uniform ts3 fs3 0 (by decide) (by decide) "x" (by decide)

/-- C10: every vocabulary word (key of `collection_word_counts`) occurs
in some section, because both counters are fed from the same per-section
token multiset; hence its document frequency `word_section_counter[w]`
is at least 1 and the IDF quotient
`section_count / word_section_counter[w]` never divides by zero. -/
theorem c10_word_section_counter_pos :
    ∀ (ts : List SectionT) (w : String), w ∈ vocab ts →
      1 ≤ word_section_counter ts w ∧ ((word_section_counter ts w : ℝ) ≠ 0) := by
  intro ts w hw
  have hmem : w ∈ allWords ts := List.mem_toFinset.1 hw
  obtain ⟨s, hs, hws⟩ := (mem_allWords ts w).1 hmem
  have hpos : 0 < word_section_counter ts w := by
    unfold word_section_counter
    refine List.countP_pos_iff.2 ⟨s, hs, ?_⟩
    simpa using hws
  exact ⟨hpos, Nat.cast_ne_zero.2 (by omega)⟩

/-- C10 witness: the document-frequency bound on a one-section corpus. -/
theorem c10_witness :
    1 ≤ word_section_counter [⟨0, ["x"]⟩] "x" ∧
    ((word_section_counter [⟨0, ["x"]⟩] "x" : ℝ) ≠ 0) :=
  c10_word_section_counter_pos [⟨0, ["x"]⟩] "x" (by decide)

end FeatureMining




